import Mathlib

/-
Verification of the Oxford Economics sales-email tool (src/app.py) against its
specification.

Shallow embedding conventions:
* A feed entry (one item of `feedparser.parse(url).entries`) is a record of the
  three fields the code reads: `title`, `link`, `published` (each via
  `e.get(field, "")`, so a missing field is the empty string).
* The network and `feedparser` are external: `fetch_recent_news` receives one
  parsed entry list per feed URL, in the order of the `feeds` list of the code.
* `email.utils.parsedate_to_datetime` plus the timezone normalisation of
  lines 107-110 is external as well: it is a parameter
  `pd : String -> Option Int` yielding the UTC instant in seconds since the
  epoch, or `none` when parsing raises (the bare `except` of line 111 turns any
  failure into a skip).  `datetime.datetime.now(utc)` is the parameter `now`,
  and `timedelta(days=7)` is 604800 seconds.
* The OpenAI completion service is a parameter `gpt : String -> String`
  mapping the full prompt to the raw response text.
* The sqlite ledger is a list of rows; `CURRENT_TIMESTAMP` is a `Nat`
  parameter supplied at each insert.
-/

/-- One syndication entry as read by the code: `e.get("title","")`,
`e.get("link","")`, `e.get("published","")`. -/
structure Entry where
  title : String
  link : String
  published : String
deriving DecidableEq, Repr

/-- Line 119: `f"{e.get('title','')} | {link} | {e.get('published','')}"`. -/
def fmtEntry (e : Entry) : String :=
  e.title ++ " | " ++ e.link ++ " | " ++ e.published

/-- The inner loop of `fetch_recent_news` (lines 105-121) over one source's
entries, threading the accumulated `entries` and `seen` state.  The
`20 <= ...` test models `if len(entries) >= 20: break`; note that in the
source this `break` leaves only the inner `for e in ...` loop, so the
function returns the state and the caller (the outer fold over sources)
continues with the next source. -/
def processSource (pd : String → Option Int) (cutoff : Int) :
    List Entry → List String × List String → List String × List String
  | [], st => st
  | e :: rest, (acc, seen) =>
    match pd e.published with
    | none => processSource pd cutoff rest (acc, seen)
    | some pub =>
      if pub < cutoff then
        processSource pd cutoff rest (acc, seen)
      else if e.link ∈ seen then
        processSource pd cutoff rest (acc, seen)
      else
        let acc2 := acc ++ [fmtEntry e]
        let seen2 := seen ++ [e.link]
        if 20 ≤ acc2.length then (acc2, seen2)
        else processSource pd cutoff rest (acc2, seen2)

/-- `fetch_recent_news` (lines 92-122): `one_week_ago` is computed once from
`now`, then every source is visited by the outer loop (the inner `break`
never skips a later source). -/
def fetch_recent_news (pd : String → Option Int) (now : Int)
    (feeds : List (List Entry)) : List String :=
  let one_week_ago := now - 604800
  (feeds.foldl (fun st src => processSource pd one_week_ago src st) ([], [])).1

/-- The same computation as `processSource` but keeping the accepted entries
themselves instead of their formatted strings; the `seen` set of the code is
exactly the set of links of the kept entries. -/
def processSourceK (pd : String → Option Int) (cutoff : Int) :
    List Entry → List Entry → List Entry
  | [], kept => kept
  | e :: rest, kept =>
    match pd e.published with
    | none => processSourceK pd cutoff rest kept
    | some pub =>
      if pub < cutoff then
        processSourceK pd cutoff rest kept
      else if e.link ∈ kept.map Entry.link then
        processSourceK pd cutoff rest kept
      else
        let kept2 := kept ++ [e]
        if 20 ≤ kept2.length then kept2
        else processSourceK pd cutoff rest kept2

/-- Entry-level view of a whole fetch invocation. -/
def fetchKept (pd : String → Option Int) (now : Int)
    (feeds : List (List Entry)) : List Entry :=
  feeds.foldl (fun kept src => processSourceK pd (now - 604800) src kept) []

/-- A concrete date parser for ground instances: only the string "d" parses,
to the instant 1000. -/
def pd0 : String → Option Int := fun s => if s = "d" then some 1000 else none

/-- Twenty recent entries with pairwise distinct links. -/
def src20 : List Entry :=
  (List.range 20).map (fun i => { title := "t", link := toString i, published := "d" })

/-- Six sources, mirroring the six feed URLs of the code: the first source
already provides 20 valid entries, the second provides one more. -/
def feedsCap : List (List Entry) :=
  [src20, [{ title := "x", link := "extra", published := "d" }], [], [], [], []]

/-! ### Lemmas about one source -/

/-- An entry that fails date parsing, or parses to an instant before the
cutoff, is skipped by the inner loop independently of the loop state. -/
theorem processSource_skip
    (pd : String → Option Int) (cutoff : Int) (e : Entry)
    (he : pd e.published = none ∨ ∃ p, pd e.published = some p ∧ p < cutoff) :
    ∀ (s1 s2 : List Entry) (acc seen : List String),
      processSource pd cutoff (s1 ++ e :: s2) (acc, seen) =
        processSource pd cutoff (s1 ++ s2) (acc, seen) := by
  intro s1
  induction s1 with
  | nil =>
    intro s2 acc seen
    rcases he with hnone | ⟨p, hp, hlt⟩
    · simp [processSource, hnone]
    · simp [processSource, hp, hlt]
  | cons x s1 ih =>
    intro s2 acc seen
    simp only [List.cons_append, processSource]
    cases hx : pd x.published with
    | none => exact ih s2 acc seen
    | some p =>
      by_cases hlt : p < cutoff
      · simp only [if_pos hlt]
        exact ih s2 acc seen
      · simp only [if_neg hlt]
        by_cases hmem : x.link ∈ seen
        · simp only [if_pos hmem]
          exact ih s2 acc seen
        · simp only [if_neg hmem]
          by_cases hlen : 20 ≤ (acc ++ [fmtEntry x]).length
          · simp only [if_pos hlen]
          · simp only [if_neg hlen]
            exact ih s2 _ _

/-- Replacing one feed source by another that acts identically on every state
does not change the fetch result. -/
theorem fetch_congr_source (pd : String → Option Int) (now : Int)
    (pre post : List (List Entry)) (src src' : List Entry)
    (h : ∀ st, processSource pd (now - 604800) src st =
          processSource pd (now - 604800) src' st) :
    fetch_recent_news pd now (pre ++ src :: post) =
      fetch_recent_news pd now (pre ++ src' :: post) := by
  show (List.foldl (fun st s => processSource pd (now - 604800) s st) ([], [])
          (pre ++ src :: post)).1 =
        (List.foldl (fun st s => processSource pd (now - 604800) s st) ([], [])
          (pre ++ src' :: post)).1
  rw [List.foldl_append, List.foldl_append, List.foldl_cons, List.foldl_cons, h]

/-- The string-level loop and the entry-level loop compute the same state:
the accumulated strings are the formatted kept entries and the seen set is
their links. -/
theorem processSource_eq_kept (pd : String → Option Int) (cutoff : Int) :
    ∀ (src kept : List Entry),
      processSource pd cutoff src (kept.map fmtEntry, kept.map Entry.link) =
        ((processSourceK pd cutoff src kept).map fmtEntry,
         (processSourceK pd cutoff src kept).map Entry.link) := by
  intro src
  induction src with
  | nil => intro kept; simp [processSource, processSourceK]
  | cons e rest ih =>
    intro kept
    simp only [processSource, processSourceK]
    cases hx : pd e.published with
    | none => exact ih kept
    | some p =>
      by_cases hlt : p < cutoff
      · simp only [if_pos hlt]; exact ih kept
      · simp only [if_neg hlt]
        by_cases hmem : e.link ∈ kept.map Entry.link
        · simp only [if_pos hmem]; exact ih kept
        · simp only [if_neg hmem]
          have h1 : kept.map fmtEntry ++ [fmtEntry e] = (kept ++ [e]).map fmtEntry := by
            simp
          have h2 : kept.map Entry.link ++ [e.link] = (kept ++ [e]).map Entry.link := by
            simp
          rw [h1, h2, List.length_map]
          by_cases hlen : 20 ≤ (kept ++ [e]).length
          · simp only [if_pos hlen]
          · simp only [if_neg hlen]; exact ih (kept ++ [e])

/-- An entry the loop keeps always carries a successfully parsed instant that
is not before the cutoff. -/
def GoodEntry (pd : String → Option Int) (cutoff : Int) (e : Entry) : Prop :=
  ∃ p, pd e.published = some p ∧ cutoff ≤ p

theorem processSourceK_good (pd : String → Option Int) (cutoff : Int) :
    ∀ (src kept : List Entry), (∀ e ∈ kept, GoodEntry pd cutoff e) →
      ∀ e ∈ processSourceK pd cutoff src kept, GoodEntry pd cutoff e := by
  intro src
  induction src with
  | nil => intro kept h; simpa [processSourceK] using h
  | cons x rest ih =>
    intro kept h
    simp only [processSourceK]
    cases hx : pd x.published with
    | none => exact ih kept h
    | some p =>
      by_cases hlt : p < cutoff
      · simp only [if_pos hlt]; exact ih kept h
      · simp only [if_neg hlt]
        by_cases hmem : x.link ∈ kept.map Entry.link
        · simp only [if_pos hmem]; exact ih kept h
        · simp only [if_neg hmem]
          have hgood : ∀ e ∈ kept ++ [x], GoodEntry pd cutoff e := by
            intro e hmem2
            rcases List.mem_append.1 hmem2 with h1 | h1
            · exact h e h1
            · have hex : e = x := List.mem_singleton.1 h1
              exact hex ▸ ⟨p, hx, le_of_not_lt hlt⟩
          by_cases hlen : 20 ≤ (kept ++ [x]).length
          · simp only [if_pos hlen]; exact hgood
          · simp only [if_neg hlen]; exact ih _ hgood

/-- The loop only ever appends to the kept list, and the appended entries form
a subsequence of the source. -/
theorem processSourceK_append (pd : String → Option Int) (cutoff : Int) :
    ∀ (src kept : List Entry),
      ∃ d, processSourceK pd cutoff src kept = kept ++ d ∧ d.Sublist src := by
  intro src
  induction src with
  | nil => intro kept; exact ⟨[], by simp [processSourceK], List.nil_sublist _⟩
  | cons x rest ih =>
    intro kept
    simp only [processSourceK]
    cases hx : pd x.published with
    | none =>
      obtain ⟨d, hd, hs⟩ := ih kept
      exact ⟨d, hd, hs.cons x⟩
    | some p =>
      by_cases hlt : p < cutoff
      · simp only [if_pos hlt]
        obtain ⟨d, hd, hs⟩ := ih kept
        exact ⟨d, hd, hs.cons x⟩
      · simp only [if_neg hlt]
        by_cases hmem : x.link ∈ kept.map Entry.link
        · simp only [if_pos hmem]
          obtain ⟨d, hd, hs⟩ := ih kept
          exact ⟨d, hd, hs.cons x⟩
        · simp only [if_neg hmem]
          by_cases hlen : 20 ≤ (kept ++ [x]).length
          · simp only [if_pos hlen]
            exact ⟨[x], rfl, (List.nil_sublist rest).cons₂ x⟩
          · simp only [if_neg hlen]
            obtain ⟨d, hd, hs⟩ := ih (kept ++ [x])
            refine ⟨x :: d, ?_, hs.cons₂ x⟩
            rw [hd, List.append_assoc]
            rfl

/-- Keeping an entry never duplicates a link. -/
theorem processSourceK_nodup (pd : String → Option Int) (cutoff : Int) :
    ∀ (src kept : List Entry), (kept.map Entry.link).Nodup →
      ((processSourceK pd cutoff src kept).map Entry.link).Nodup := by
  intro src
  induction src with
  | nil => intro kept h; simpa [processSourceK] using h
  | cons x rest ih =>
    intro kept h
    simp only [processSourceK]
    cases hx : pd x.published with
    | none => exact ih kept h
    | some p =>
      by_cases hlt : p < cutoff
      · simp only [if_pos hlt]; exact ih kept h
      · simp only [if_neg hlt]
        by_cases hmem : x.link ∈ kept.map Entry.link
        · simp only [if_pos hmem]; exact ih kept h
        · simp only [if_neg hmem]
          have hnd : ((kept ++ [x]).map Entry.link).Nodup := by
            simp only [List.map_append, List.map_cons, List.map_nil]
            simp [List.nodup_append, h, hmem]
          by_cases hlen : 20 ≤ (kept ++ [x]).length
          · simp only [if_pos hlen]; exact hnd
          · simp only [if_neg hlen]; exact ih _ hnd

/-! ### Lemmas about the whole fetch -/

theorem foldK_eq (pd : String → Option Int) (now : Int) :
    ∀ (feeds : List (List Entry)) (kept : List Entry),
      feeds.foldl (fun st src => processSource pd (now - 604800) src st)
          (kept.map fmtEntry, kept.map Entry.link) =
        ((feeds.foldl (fun k src => processSourceK pd (now - 604800) src k) kept).map
          fmtEntry,
         (feeds.foldl (fun k src => processSourceK pd (now - 604800) src k) kept).map
          Entry.link) := by
  intro feeds
  induction feeds with
  | nil => intro kept; simp
  | cons src feeds ih =>
    intro kept
    rw [List.foldl_cons, List.foldl_cons, processSource_eq_kept, ih]

/-- The fetch result is exactly the formatted kept-entry list. -/
theorem fetch_eq_fetchKept (pd : String → Option Int) (now : Int)
    (feeds : List (List Entry)) :
    fetch_recent_news pd now feeds = (fetchKept pd now feeds).map fmtEntry := by
  show (feeds.foldl (fun st src => processSource pd (now - 604800) src st)
          ([], [])).1 = _
  have h := foldK_eq pd now feeds []
  simp only [List.map_nil] at h
  rw [h]
  rfl

theorem foldK_good (pd : String → Option Int) (now : Int) :
    ∀ (feeds : List (List Entry)) (kept : List Entry),
      (∀ e ∈ kept, GoodEntry pd (now - 604800) e) →
      ∀ e ∈ feeds.foldl (fun k src => processSourceK pd (now - 604800) src k) kept,
        GoodEntry pd (now - 604800) e := by
  intro feeds
  induction feeds with
  | nil => intro kept h; simpa using h
  | cons src feeds ih =>
    intro kept h
    rw [List.foldl_cons]
    exact ih _ (processSourceK_good pd (now - 604800) src kept h)

/-- Every entry kept by a fetch has a parse that succeeded and an instant not
before the one-week cutoff. -/
theorem fetchKept_good (pd : String → Option Int) (now : Int)
    (feeds : List (List Entry)) :
    ∀ e ∈ fetchKept pd now feeds, GoodEntry pd (now - 604800) e :=
  foldK_good pd now feeds [] (by intro e h; cases h)

theorem foldK_nodup (pd : String → Option Int) (now : Int) :
    ∀ (feeds : List (List Entry)) (kept : List Entry),
      (kept.map Entry.link).Nodup →
      ((feeds.foldl (fun k src => processSourceK pd (now - 604800) src k) kept).map
        Entry.link).Nodup := by
  intro feeds
  induction feeds with
  | nil => intro kept h; simpa using h
  | cons src feeds ih =>
    intro kept h
    rw [List.foldl_cons]
    exact ih _ (processSourceK_nodup pd (now - 604800) src kept h)

/-- No two kept entries share a link. -/
theorem fetchKept_nodup (pd : String → Option Int) (now : Int)
    (feeds : List (List Entry)) :
    ((fetchKept pd now feeds).map Entry.link).Nodup :=
  foldK_nodup pd now feeds [] (by simp)

theorem foldK_append (pd : String → Option Int) (now : Int) :
    ∀ (feeds : List (List Entry)) (kept : List Entry),
      ∃ d, feeds.foldl (fun k src => processSourceK pd (now - 604800) src k) kept =
            kept ++ d ∧ d.Sublist feeds.flatten := by
  intro feeds
  induction feeds with
  | nil => intro kept; exact ⟨[], by simp, by simp⟩
  | cons src feeds ih =>
    intro kept
    rw [List.foldl_cons]
    obtain ⟨d1, hd1, hs1⟩ := processSourceK_append pd (now - 604800) src kept
    obtain ⟨d2, hd2, hs2⟩ := ih (kept ++ d1)
    refine ⟨d1 ++ d2, ?_, ?_⟩
    · rw [hd1, hd2, List.append_assoc]
    · rw [List.flatten_cons]
      exact hs1.append hs2

/-- The kept entries form a subsequence of all provided entries in
source-then-entry order: the output order is feed iteration order. -/
theorem fetchKept_sublist (pd : String → Option Int) (now : Int)
    (feeds : List (List Entry)) :
    (fetchKept pd now feeds).Sublist feeds.flatten := by
  obtain ⟨d, hd, hs⟩ := foldK_append pd now feeds []
  show List.foldl _ [] feeds |>.Sublist feeds.flatten
  rw [hd]
  simpa using hs

/-! ### First-occurrence-wins characterisation of the dedup -/

/-- The state-independent part of the per-entry test of lines 106-114: the
date parses and the instant is not before the cutoff.  (Whether a surviving
entry is kept additionally depends on the seen-set and the cap.) -/
def survivesB (pd : String → Option Int) (cutoff : Int) (e : Entry) : Bool :=
  match pd e.published with
  | none => false
  | some p => if p < cutoff then false else true

/-- Reference function written from the spec words "the first occurrence
across all sources (in source order) is kept; later duplicates are
dropped": keep exactly the first occurrence of each link not yet in `seen`,
preserving order. -/
def dedupFirst : List Entry → List String → List Entry
  | [], _ => []
  | e :: rest, seen =>
    if e.link ∈ seen then dedupFirst rest seen
    else e :: dedupFirst rest (seen ++ [e.link])

theorem dedupFirst_append :
    ∀ (X Y : List Entry) (seen : List String),
      dedupFirst (X ++ Y) seen =
        dedupFirst X seen ++
          dedupFirst Y (seen ++ (dedupFirst X seen).map Entry.link) := by
  intro X
  induction X with
  | nil => intro Y seen; simp [dedupFirst]
  | cons e X ih =>
    intro Y seen
    by_cases hm : e.link ∈ seen
    · simp only [List.cons_append, dedupFirst, if_pos hm]
      exact ih Y seen
    · simp only [List.cons_append, dedupFirst, if_neg hm]
      rw [List.append_eq, ih Y (seen ++ [e.link])]
      simp [List.append_assoc]

/-- The kept list only grows along the fold over sources. -/
theorem foldK_length_le (pd : String → Option Int) (c : Int) :
    ∀ (feeds : List (List Entry)) (kept : List Entry),
      kept.length ≤
        (feeds.foldl (fun k s => processSourceK pd c s k) kept).length := by
  intro feeds
  induction feeds with
  | nil => intro kept; simp
  | cons src feeds ih =>
    intro kept
    rw [List.foldl_cons]
    obtain ⟨d, hd, _⟩ := processSourceK_append pd c src kept
    calc kept.length ≤ (processSourceK pd c src kept).length := by
          rw [hd]; simp
      _ ≤ _ := ih _

/-- One source: the loop examines a prefix of the source — the whole source
unless the 20-cap is reached — and keeps exactly the first occurrence of
each link not yet seen among the surviving examined entries, in order. -/
theorem processSourceK_dedup (pd : String → Option Int) (c : Int) :
    ∀ (src kept : List Entry),
      ∃ n, (n = src.length ∨ 20 ≤ (processSourceK pd c src kept).length) ∧
        processSourceK pd c src kept =
          kept ++ dedupFirst ((src.take n).filter (survivesB pd c))
            (kept.map Entry.link) := by
  intro src
  induction src with
  | nil =>
    intro kept
    exact ⟨0, Or.inl rfl, by simp [processSourceK, dedupFirst]⟩
  | cons e rest ih =>
    intro kept
    simp only [processSourceK]
    cases hx : pd e.published with
    | none =>
      obtain ⟨n, hd, hn⟩ := ih kept
      have hsurv : survivesB pd c e = false := by simp [survivesB, hx]
      refine ⟨n + 1, ?_, ?_⟩
      · rcases hd with h | h
        · exact Or.inl (by simp [h])
        · exact Or.inr h
      · rw [List.take_succ_cons, List.filter_cons, hsurv]
        simpa using hn
    | some p =>
      by_cases hlt : p < c
      · simp only [if_pos hlt]
        obtain ⟨n, hd, hn⟩ := ih kept
        have hsurv : survivesB pd c e = false := by simp [survivesB, hx, hlt]
        refine ⟨n + 1, ?_, ?_⟩
        · rcases hd with h | h
          · exact Or.inl (by simp [h])
          · exact Or.inr h
        · rw [List.take_succ_cons, List.filter_cons, hsurv]
          simpa using hn
      · simp only [if_neg hlt]
        have hsurv : survivesB pd c e = true := by simp [survivesB, hx, hlt]
        by_cases hm : e.link ∈ kept.map Entry.link
        · simp only [if_pos hm]
          obtain ⟨n, hd, hn⟩ := ih kept
          refine ⟨n + 1, ?_, ?_⟩
          · rcases hd with h | h
            · exact Or.inl (by simp [h])
            · exact Or.inr h
          · rw [List.take_succ_cons, List.filter_cons, hsurv, hn]
            simp [dedupFirst, hm]
        · simp only [if_neg hm]
          by_cases hlen : 20 ≤ (kept ++ [e]).length
          · simp only [if_pos hlen]
            refine ⟨1, Or.inr (by simpa using hlen), ?_⟩
            rw [List.take_succ_cons, List.take_zero, List.filter_cons, hsurv]
            simp [dedupFirst, hm]
          · simp only [if_neg hlen]
            obtain ⟨n, hd, hn⟩ := ih (kept ++ [e])
            refine ⟨n + 1, ?_, ?_⟩
            · rcases hd with h | h
              · exact Or.inl (by simp [h])
              · exact Or.inr h
            · rw [List.take_succ_cons, List.filter_cons, hsurv, hn]
              simp [dedupFirst, hm, List.append_assoc]

/-- Whole fetch: there are per-source examined prefixes — each the whole
source unless 20 entries were already collected — such that the kept list
is exactly the first-occurrence-per-link dedup of the surviving examined
entries, in source-then-entry order. -/
theorem foldK_dedup (pd : String → Option Int) (c : Int) :
    ∀ (feeds : List (List Entry)) (kept : List Entry),
      ∃ ns : List Nat,
        List.Forall₂ (fun n (src : List Entry) => n = src.length ∨
            20 ≤ (feeds.foldl (fun k s => processSourceK pd c s k) kept).length)
          ns feeds ∧
        feeds.foldl (fun k s => processSourceK pd c s k) kept =
          kept ++ dedupFirst
            ((List.zipWith (fun (s : List Entry) n => s.take n) feeds
              ns).flatten.filter (survivesB pd c))
            (kept.map Entry.link) := by
  intro feeds
  induction feeds with
  | nil =>
    intro kept
    exact ⟨[], List.Forall₂.nil, by simp [dedupFirst]⟩
  | cons src feeds ih =>
    intro kept
    obtain ⟨n1, hd1, hn1⟩ := processSourceK_dedup pd c src kept
    obtain ⟨ns, hfa, hns⟩ := ih (processSourceK pd c src kept)
    refine ⟨n1 :: ns, ?_, ?_⟩
    · simp only [List.foldl_cons]
      refine List.Forall₂.cons ?_ hfa
      rcases hd1 with h | h
      · exact Or.inl h
      · exact Or.inr (le_trans h (foldK_length_le pd c feeds _))
    · rw [List.foldl_cons, hns, hn1]
      rw [List.zipWith_cons_cons, List.flatten_cons, List.filter_append,
        dedupFirst_append]
      simp [List.append_assoc, List.map_append]

/-! ### Claim C1 -/

/-- C1: the claim states the candidate list never exceeds 20 entries and that
once 20 are collected no further entry of any source is examined or added.
The code's `break` (line 121) leaves only the inner entry loop, so the outer
loop still visits every later source and each can append one further entry
before breaking again: with 20 valid entries in the first source and one more
in the second, the fetch returns 21 entries, the last one coming from the
second source.  This evaluates the embedded code at that failing input. -/
theorem fetch_cap_exceeded :
    (fetch_recent_news pd0 1000 feedsCap).length = 21 ∧
      20 < (fetch_recent_news pd0 1000 feedsCap).length ∧
      (fetch_recent_news pd0 1000 feedsCap).getLast? = some "x | extra | d" := by
  refine ⟨by decide, by decide, by decide⟩

/-! ### Claim C2 -/

/-- C2: an entry whose `published` field is missing or unparseable (the date
parser yields `none`, covering the bare `except: continue` of lines 111-112)
is silently excluded: deleting such an entry from any position of any source
leaves the fetch result unchanged (first conjunct: no error is raised and
processing continues with the following entries), and every returned
candidate stems from an entry whose date parse succeeded (second
conjunct). -/
theorem unparseable_entry_excluded (pd : String → Option Int) (now : Int) :
    (∀ (e : Entry) (pre post : List (List Entry)) (s1 s2 : List Entry),
        pd e.published = none →
        fetch_recent_news pd now (pre ++ (s1 ++ e :: s2) :: post) =
          fetch_recent_news pd now (pre ++ (s1 ++ s2) :: post)) ∧
    (∀ (feeds : List (List Entry)) (s : String),
        s ∈ fetch_recent_news pd now feeds →
        ∃ e p, pd e.published = some p ∧ s = fmtEntry e) := by
  constructor
  · intro e pre post s1 s2 hnone
    apply fetch_congr_source
    rintro ⟨acc, seen⟩
    exact processSource_skip pd _ e (Or.inl hnone) s1 s2 acc seen
  · intro feeds s hs
    rw [fetch_eq_fetchKept] at hs
    obtain ⟨e, he, rfl⟩ := List.mem_map.1 hs
    obtain ⟨p, hp, _⟩ := fetchKept_good pd now feeds e he
    exact ⟨e, p, hp, rfl⟩

/-- Ground instance of C2: the entry with unparseable date "zz" is dropped and
the fetch of the remaining entry is unchanged. -/
theorem unparseable_entry_excluded_w :
    pd0 "zz" = none ∧
      fetch_recent_news pd0 1000
          [[{ title := "bad", link := "B", published := "zz" },
            { title := "t2", link := "M", published := "d" }]] =
        fetch_recent_news pd0 1000
          [[{ title := "t2", link := "M", published := "d" }]] :=
  ⟨by decide,
   (unparseable_entry_excluded pd0 1000).1
     { title := "bad", link := "B", published := "zz" } [] [] []
     [{ title := "t2", link := "M", published := "d" }] (by decide)⟩

/-! ### Claim C3 -/

/-- C3: the recency cutoff `one_week_ago` is `now - 7 days` computed once per
invocation from the single `now` argument (every entry of every source is
compared to the same cutoff in the embedding, mirroring line 102 which runs
once before the loops).  First conjunct: an entry whose parsed UTC instant is
strictly before the cutoff is excluded — deleting it from any position leaves
the result unchanged.  Second conjunct: every returned candidate parsed to an
instant at or after the cutoff. -/
theorem stale_entry_excluded (pd : String → Option Int) (now : Int) :
    (∀ (e : Entry) (p : Int) (pre post : List (List Entry)) (s1 s2 : List Entry),
        pd e.published = some p → p < now - 604800 →
        fetch_recent_news pd now (pre ++ (s1 ++ e :: s2) :: post) =
          fetch_recent_news pd now (pre ++ (s1 ++ s2) :: post)) ∧
    (∀ (feeds : List (List Entry)) (s : String),
        s ∈ fetch_recent_news pd now feeds →
        ∃ e p, pd e.published = some p ∧ now - 604800 ≤ p ∧ s = fmtEntry e) := by
  constructor
  · intro e p pre post s1 s2 hp hlt
    apply fetch_congr_source
    rintro ⟨acc, seen⟩
    exact processSource_skip pd _ e (Or.inr ⟨p, hp, hlt⟩) s1 s2 acc seen
  · intro feeds s hs
    rw [fetch_eq_fetchKept] at hs
    obtain ⟨e, he, rfl⟩ := List.mem_map.1 hs
    obtain ⟨p, hp, hcut⟩ := fetchKept_good pd now feeds e he
    exact ⟨e, p, hp, hcut, rfl⟩

/-- Ground instance of C3: with `now = 700000` the cutoff is 95200, so the
entry published at instant 1000 is stale and dropped without error. -/
theorem stale_entry_excluded_w :
    pd0 "d" = some 1000 ∧ (1000 : Int) < 700000 - 604800 ∧
      fetch_recent_news pd0 700000
          [[{ title := "t", link := "L", published := "d" }]] =
        fetch_recent_news pd0 700000 [([] : List Entry)] :=
  ⟨by decide, by decide,
   (stale_entry_excluded pd0 700000).1
     { title := "t", link := "L", published := "d" } 1000 [] [] [] []
     (by decide) (by decide)⟩

/-! ### Claim C4 -/

/-- C4: within one invocation the kept candidates are unique by link (second
conjunct), listed in feed-source iteration order, then entry order within a
source — a subsequence of the concatenated sources (third conjunct), not
timestamp order.  The fourth conjunct is the universal
first-occurrence-wins property: the kept list equals `dedupFirst` — the
reference "keep only the first occurrence of each link" function — applied
to the surviving entries of per-source examined prefixes, where each prefix
is the WHOLE source unless 20 entries were already collected (so apart from
cap truncation every surviving occurrence is considered, and of entries
with equal links exactly the first examined one survives, in first-seen
order).  The first conjunct ties the string result to the kept entries; the
last conjunct is a ground instance where a link duplicated across two
sources survives only with the first source's title, in source order. -/
theorem dedup_first_seen_order (pd : String → Option Int) (now : Int)
    (feeds : List (List Entry)) :
    fetch_recent_news pd now feeds = (fetchKept pd now feeds).map fmtEntry ∧
    ((fetchKept pd now feeds).map Entry.link).Nodup ∧
    (fetchKept pd now feeds).Sublist feeds.flatten ∧
    (∃ ns : List Nat,
      List.Forall₂ (fun n (src : List Entry) => n = src.length ∨
          20 ≤ (fetchKept pd now feeds).length) ns feeds ∧
      fetchKept pd now feeds =
        dedupFirst
          ((List.zipWith (fun (s : List Entry) n => s.take n) feeds
            ns).flatten.filter (survivesB pd (now - 604800))) []) ∧
    fetch_recent_news pd0 1000
        [[{ title := "t1", link := "L", published := "d" }],
         [{ title := "t2", link := "L", published := "d" },
          { title := "t3", link := "M", published := "d" }]] =
      ["t1 | L | d", "t3 | M | d"] := by
  obtain ⟨ns, hfa, heq⟩ := foldK_dedup pd (now - 604800) feeds []
  exact ⟨fetch_eq_fetchKept pd now feeds, fetchKept_nodup pd now feeds,
    fetchKept_sublist pd now feeds,
    ⟨ns, hfa, by simpa [fetchKept] using heq⟩, by decide⟩

/-! ### The display-loop line parser (lines 163-166) -/

/-- Python `str.split(sep, maxsplit)` for a one-character separator, on the
character list: at most `n` splits; once the budget is exhausted the rest of
the characters (separators included) stay in the final field. -/
def splitMaxAux (c : Char) : Nat → List Char → List Char → List (List Char)
  | _, cur, [] => [cur.reverse]
  | 0, cur, rest => [cur.reverse ++ rest]
  | Nat.succ n, cur, x :: xs =>
    if x = c then cur.reverse :: splitMaxAux c n [] xs
    else splitMaxAux c (Nat.succ n) (x :: cur) xs

def pySplitMax (c : Char) (n : Nat) (s : String) : List String :=
  (splitMaxAux c n [] s.data).map (fun l => String.mk l)

/-- Python `str.strip()`: remove leading and trailing whitespace. -/
def pyStrip (s : String) : String :=
  String.mk (((s.data.dropWhile Char.isWhitespace).reverse.dropWhile
    Char.isWhitespace).reverse)

/-- One iteration of the display loop (lines 163-166) on one line of the
relevance-filter response.  `"|" not in row` skips the line
(`Except.ok none`); otherwise `row.split("|",3)` is computed, every field
stripped, the first three taken, and the tuple unpacking
`title, link, pubDate = ...` succeeds only when at least three fields exist —
with fewer, Python raises ValueError, modelled as `Except.error ()`. -/
def processRow (row : String) : Except Unit (Option (String × String × String)) :=
  if '|' ∈ row.data then
    match ((pySplitMax '|' 3 row).map pyStrip).take 3 with
    | [t, l, d] => Except.ok (some (t, l, d))
    | _ => Except.error ()
  else Except.ok none

/-- The number of fields produced by a budgeted split. -/
theorem splitMaxAux_length (c : Char) :
    ∀ (cs : List Char) (n : Nat) (cur : List Char),
      (splitMaxAux c n cur cs).length = min (cs.count c) n + 1 := by
  intro cs
  induction cs with
  | nil => intro n cur; cases n <;> simp [splitMaxAux]
  | cons x xs ih =>
    intro n cur
    cases n with
    | zero => simp [splitMaxAux]
    | succ m =>
      by_cases hx : x = c
      · subst hx
        simp only [splitMaxAux, if_pos rfl, List.length_cons, ih, List.count_cons,
          beq_self_eq_true, if_true]
        omega
      · have hcx : ¬ (x == c) = true := by
          simpa [beq_iff_eq] using hx
        simp only [splitMaxAux, if_neg hx, ih, List.count_cons, if_neg hcx]
        omega

/-! ### Claim C5 -/

/-- C5 counterexample: the line "a | b" contains a pipe delimiter, yet the
display loop raises on it: `row.split("|",3)` yields only two fields and the
tuple unpacking `title, link, pubDate = ...` of line 166 raises ValueError.
This refutes the claim that any line containing at least one pipe delimiter
is parsed without raising. -/
theorem one_pipe_line_raises :
    '|' ∈ "a | b".data ∧ processRow "a | b" = Except.error () :=
  ⟨by decide, rfl⟩

/-- C5 amended: a line without a pipe is skipped without error; a line with
at least TWO pipe delimiters (hence at least three fields) is split into at
most 4 whitespace-trimmed fields and parsed to (title, link, pubDate) without
raising, the fourth field (region) being ignored and allowed to be absent —
the given three-field scenario line parses exactly as the claim says; but a
line with exactly one pipe raises (see the counterexample), so "at least one
pipe" must read "at least two". -/
theorem lenient_line_parse (row : String) :
    ('|' ∉ row.data → processRow row = Except.ok none) ∧
    (2 ≤ row.data.count '|' →
      ∃ t l d, processRow row = Except.ok (some (t, l, d))) ∧
    processRow "Tariffs hit EU exporters | https://x | 2024-05-01" =
      Except.ok (some ("Tariffs hit EU exporters", "https://x", "2024-05-01")) := by
  refine ⟨?_, ?_, rfl⟩
  · intro h
    simp [processRow, h]
  · intro h2
    have hmem : '|' ∈ row.data := by
      have hpos : 0 < row.data.count '|' := by omega
      exact List.count_pos_iff.1 hpos
    have hlen3 : (((pySplitMax '|' 3 row).map pyStrip).take 3).length = 3 := by
      have h1 : (pySplitMax '|' 3 row).length = min (row.data.count '|') 3 + 1 := by
        simpa [pySplitMax] using splitMaxAux_length '|' row.data 3 []
      have h2' : 3 ≤ ((pySplitMax '|' 3 row).map pyStrip).length := by
        rw [List.length_map, h1]; omega
      rw [List.length_take]; omega
    obtain ⟨a, b, c, habc⟩ := List.length_eq_three.1 hlen3
    refine ⟨a, b, c, ?_⟩
    simp [processRow, hmem, habc]

/-- Ground instance of C5 (amended): a two-pipe line parses to three
fields. -/
theorem lenient_line_parse_w :
    2 ≤ "x|y|z".data.count '|' ∧
      ∃ t l d, processRow "x|y|z" = Except.ok (some (t, l, d)) :=
  ⟨by decide, (lenient_line_parse "x|y|z").2.1 (by decide)⟩

/-! ### The analyze cycle (lines 124-177) -/

/-- `openai_chat` (lines 124-130): one completion-service call; the response
content is stripped.  The service itself is the parameter `gpt`. -/
def openai_chat (gpt : String → String) (prompt : String) : String :=
  pyStrip (gpt prompt)

/-- The prompt built by `filter_news_with_gpt` (lines 132-139): the sector
and the newline-joined candidate lines interpolated into the template. -/
def relevancePrompt (sector : String) (news_list : List String) : String :=
  "You are a research assistant for Sales at Oxford Economics.\nFrom these headlines, return only B2B-relevant items for European companies in "
    ++ sector ++
    ".\nOutput as Title | Link | pubDate | Region, sorted newest first:\n\n"
    ++ String.intercalate "\n" news_list ++ "\n"

/-- `filter_news_with_gpt` (lines 132-140). -/
def filter_news_with_gpt (gpt : String → String) (sector : String)
    (news_list : List String) : String :=
  openai_chat gpt (relevancePrompt sector news_list)

/-- The prompt of `assign_persona` (line 142). -/
def personaPrompt (t : String) : String :=
  "Given headline: \x27" ++ t ++ "\x27, list one relevant persona."

/-- The prompt of `score_impact` (line 143). -/
def impactPrompt (t : String) : String :=
  "Rate impact 1-5: \x27" ++ t ++ "\x27. Reply with only the number."

/-- The prompt of `generate_subject` (line 144). -/
def subjectPrompt (t : String) : String :=
  "Write a 6-8 word subject line for: \x27" ++ t ++ "\x27."

/-- The prompt of `generate_email` (line 145). -/
def emailPrompt (t p : String) : String :=
  "Persona: " ++ p ++ "\nHeadline: " ++ t ++ "\nWrite a concise outreach email."

/-- The session state written by the Fetch & Analyze handler. -/
structure CycleState where
  raw_news : List String
  filtered_news : String

/-- The Fetch & Analyze button handler (lines 148-153): store the fetched
candidates; when they are nonempty run the relevance filter, otherwise store
the empty string. -/
def fetchAnalyze (gpt : String → String) (sector : String)
    (candidates : List String) : CycleState :=
  { raw_news := candidates,
    filtered_news :=
      if candidates.isEmpty then ""
      else filter_news_with_gpt gpt sector candidates }

/-- The completion-service prompts issued by the display loop (lines
162-177), in order: for each parsed line its persona, impact, subject and
email prompts (the email prompt uses the persona response).  A line without
pipes issues none; a line with exactly one pipe raises, aborting the loop. -/
def enrichTrace (gpt : String → String) : List String → List String
  | [] => []
  | row :: rest =>
    match processRow row with
    | Except.error _ => []
    | Except.ok none => enrichTrace gpt rest
    | Except.ok (some (t, _, _)) =>
      personaPrompt t :: impactPrompt t :: subjectPrompt t ::
        emailPrompt t (openai_chat gpt (personaPrompt t)) :: enrichTrace gpt rest

/-- Lines 162-163: the display/enrichment loop runs only when
`st.session_state.filtered_news` is a truthy (nonempty) string, and iterates
over its lines. -/
def displayCalls (gpt : String → String) (filtered : String) : List String :=
  if filtered = "" then [] else enrichTrace gpt (filtered.splitOn "\n")

/-! ### Claim C6 -/

/-- C6: when the fetch yields zero candidates, or the completion service
returns the empty string for the relevance filter, the stored
`filtered_news` is the empty string and the display loop issues no
enrichment call at all — no persona, impact-score, subject or email prompt
is ever sent for that cycle. -/
theorem empty_filter_halts (gpt : String → String) (sector : String)
    (candidates : List String)
    (h : candidates = [] ∨ gpt (relevancePrompt sector candidates) = "") :
    (fetchAnalyze gpt sector candidates).filtered_news = "" ∧
      displayCalls gpt (fetchAnalyze gpt sector candidates).filtered_news = [] := by
  have hf : (fetchAnalyze gpt sector candidates).filtered_news = "" := by
    rcases h with rfl | hempty
    · rfl
    · by_cases hc : candidates.isEmpty
      · simp [fetchAnalyze, hc]
      · simp [fetchAnalyze, hc, filter_news_with_gpt, openai_chat, hempty, pyStrip]
  exact ⟨hf, by rw [hf]; rfl⟩

/-- Ground instance of C6: a completion service that answers the empty
string leads to an empty `filtered_news` and zero enrichment prompts. -/
theorem empty_filter_halts_w :
    (fetchAnalyze (fun _ => "") "Real Estate" ["t | L | d"]).filtered_news = "" ∧
      displayCalls (fun _ => "")
        (fetchAnalyze (fun _ => "") "Real Estate" ["t | L | d"]).filtered_news = [] :=
  empty_filter_halts (fun _ => "") "Real Estate" ["t | L | d"] (Or.inr rfl)

/-! ### The outreach ledger (lines 44-73 and 179-200) -/

/-- One row of the `outreach` table (lines 47-56): `id INTEGER PRIMARY KEY`
(the rowid), `user TEXT`, `title TEXT`, `ts TIMESTAMP DEFAULT
CURRENT_TIMESTAMP`, and the nullable integers `used` and `success`. -/
structure Row where
  id : Nat
  user : String
  title : String
  ts : Nat
  used : Option Int
  success : Option Int
deriving DecidableEq, Inhabited

/-- SQLite assigns a fresh rowid: one more than the largest one in use. -/
def nextId (db : List Row) : Nat := (db.map Row.id).foldl max 0 + 1

/-- The row created by the insert of lines 181-184: `used` is hard-coded to
1, `success` stays NULL, `ts` takes the current timestamp. -/
def usedRow (db : List Row) (now : Nat) (u ti : String) : Row :=
  { id := nextId db, user := u, title := ti, ts := now,
    used := some 1, success := none }

/-- The Mark-as-Used handler (lines 180-186):
`INSERT INTO outreach(user,title,used) VALUES (?,?,1)`. -/
def recordUsed (db : List Row) (now : Nat) (u ti : String) : List Row :=
  db ++ [usedRow db now u ti]

/-- The `WHERE user=? AND title=?` predicate. -/
def matchB (u ti : String) (r : Row) : Bool := r.user == u && r.title == ti

/-- The row targeted by `UPDATE ... WHERE user=? AND title=? ORDER BY ts DESC
LIMIT 1` (lines 188-191 and 195-198): index and timestamp of the matching row
with the greatest `ts`.  SQLite leaves the relative order of equal timestamps
unspecified; here ties go to the earliest row, and the claims below use
distinct timestamps so the choice of tie-break is immaterial to them. -/
def pickLatest (u ti : String) : List Row → Option (Nat × Nat)
  | [] => none
  | r :: rest =>
    if matchB u ti r then
      match (pickLatest u ti rest).map (fun q => (q.1 + 1, q.2)) with
      | none => some (0, r.ts)
      | some (j, tsj) => if r.ts < tsj then some (j, tsj) else some (0, r.ts)
    else (pickLatest u ti rest).map (fun q => (q.1 + 1, q.2))

/-- The Success and Fail handlers (lines 187-200): set `success` (to 1 or 0)
on the single targeted row; when no row matches, the update affects zero
rows and no error is raised. -/
def recordOutcome (db : List Row) (u ti : String) (s : Int) : List Row :=
  match pickLatest u ti db with
  | none => db
  | some (i, _) => db.set i { db.getD i default with success := some s }

/-- The rows of one user (`WHERE user = ?`). -/
def userRows (db : List Row) (u : String) : List Row :=
  db.filter (fun r => r.user == u)

/-- What the success-rate line shows: either "N/A" or the pair
(successes, used-total) that the f-string of line 72 renders.  The float
percentage of the display is abstracted to the integer pair it is computed
from. -/
inductive RateDisplay
  | na
  | ratio (succ total : Nat)
deriving DecidableEq

/-- The per-user sidebar statistics. -/
structure Stats where
  usedCount : Nat
  notUsedCount : Nat
  successCount : Nat
  successRate : RateDisplay
deriving DecidableEq

/-- The sidebar statistics block (lines 60-73).  The grouped count query
produces an empty frame exactly when the user has no rows, and then the
whole block — bar chart and success-rate line — is skipped (`none`).
Otherwise the used=0 and used=1 group counts are read off (absent groups
filled with 0 by the reindex of line 65, rows with NULL `used` dropped), the
success count is `COUNT(*) ... AND success=1`, and the rate line shows
succ/total when the used=1 count is positive, else "N/A". -/
def computeStats (db : List Row) (u : String) : Option Stats :=
  let rows := userRows db u
  if rows.isEmpty then none
  else
    let total := (rows.filter (fun r => r.used == some 1)).length
    let notUsed := (rows.filter (fun r => r.used == some 0)).length
    let succCount := (rows.filter (fun r => r.success == some 1)).length
    some { usedCount := total, notUsedCount := notUsed, successCount := succCount,
           successRate :=
             if 0 < total then RateDisplay.ratio succCount total
             else RateDisplay.na }

/-- The ledger states reachable through the app's handlers, starting from
the empty table created at line 47. -/
inductive Reachable : List Row → Prop
  | init : Reachable []
  | used : ∀ {db} (now : Nat) (u ti : String),
      Reachable db → Reachable (recordUsed db now u ti)
  | outcome : ∀ {db} (u ti : String) (s : Int),
      Reachable db → Reachable (recordOutcome db u ti s)

/-! ### Lemmas about the ledger -/

/-- When no row matches, the update targets nothing. -/
theorem pickLatest_none (u ti : String) :
    ∀ db : List Row, (∀ r ∈ db, matchB u ti r = false) →
      pickLatest u ti db = none := by
  intro db
  induction db with
  | nil => intro _; rfl
  | cons r rest ih =>
    intro h
    have hr : matchB u ti r = false := h r (List.mem_cons_self r rest)
    have ht : pickLatest u ti rest = none :=
      ih (fun q hq => h q (List.mem_cons_of_mem r hq))
    simp [pickLatest, hr, ht]

/-- Conversely, a targetless update means no row matched. -/
theorem pickLatest_none_imp (u ti : String) :
    ∀ db : List Row, pickLatest u ti db = none →
      ∀ r ∈ db, matchB u ti r = false := by
  intro db
  induction db with
  | nil => intro _ r hr; cases hr
  | cons r rest ih =>
    intro h q hq
    by_cases hr : matchB u ti r = true
    · exfalso
      rw [pickLatest, if_pos hr] at h
      cases htail : pickLatest u ti rest with
      | none => rw [htail] at h; simp at h
      | some q2 =>
        rw [htail] at h
        rcases q2 with ⟨j0, ts0⟩
        by_cases hlt : r.ts < ts0 <;> simp [hlt] at h
    · have hr' : matchB u ti r = false := by
        revert hr; cases matchB u ti r <;> simp
      rw [pickLatest, if_neg hr] at h
      rcases List.mem_cons.1 hq with rfl | hq2
      · exact hr'
      · have ht : pickLatest u ti rest = none := by
          cases htail : pickLatest u ti rest with
          | none => rfl
          | some q2 => rw [htail] at h; simp at h
        exact ih ht q hq2

/-- The targeted row exists, matches, carries the reported timestamp, and
that timestamp is maximal among all matching rows. -/
theorem pickLatest_spec (u ti : String) :
    ∀ (db : List Row) (i tsv : Nat), pickLatest u ti db = some (i, tsv) →
      i < db.length ∧ matchB u ti (db.getD i default) = true ∧
        (db.getD i default).ts = tsv ∧
        ∀ j < db.length, matchB u ti (db.getD j default) = true →
          (db.getD j default).ts ≤ tsv := by
  intro db
  induction db with
  | nil => intro i tsv h; cases h
  | cons r rest ih =>
    intro i tsv h
    by_cases hr : matchB u ti r = true
    · rw [pickLatest, if_pos hr] at h
      cases htail : pickLatest u ti rest with
      | none =>
        rw [htail] at h
        simp only [Option.map_none'] at h
        obtain ⟨rfl, rfl⟩ : 0 = i ∧ r.ts = tsv := by
          constructor <;> [exact congrArg Prod.fst (Option.some.inj h);
            exact congrArg Prod.snd (Option.some.inj h)]
        refine ⟨Nat.succ_pos _, by simpa using hr, rfl, ?_⟩
        intro j hj hmj
        cases j with
        | zero => simp
        | succ k =>
          exfalso
          have : matchB u ti (rest.getD k default) = true := by
            simpa using hmj
          have hk : k < rest.length := Nat.lt_of_succ_lt_succ hj
          have hfalse := pickLatest_none_imp u ti rest htail
            (rest.getD k default)
            (by rw [List.getD_eq_getElem rest default hk]; exact List.getElem_mem hk)
          rw [this] at hfalse
          cases hfalse
      | some q2 =>
        rcases q2 with ⟨j0, ts0⟩
        rw [htail] at h
        simp only [Option.map_some'] at h
        obtain ⟨hj0, hm0, hts0, hmax0⟩ := ih j0 ts0 htail
        by_cases hlt : r.ts < ts0
        · rw [if_pos hlt] at h
          obtain ⟨rfl, rfl⟩ : j0 + 1 = i ∧ ts0 = tsv := by
            constructor <;> [exact congrArg Prod.fst (Option.some.inj h);
              exact congrArg Prod.snd (Option.some.inj h)]
          refine ⟨Nat.succ_lt_succ hj0, by simpa using hm0, by simpa using hts0, ?_⟩
          intro j hj hmj
          cases j with
          | zero => simpa using le_of_lt hlt
          | succ k =>
            have hk : k < rest.length := Nat.lt_of_succ_lt_succ hj
            simpa using hmax0 k hk (by simpa using hmj)
        · rw [if_neg hlt] at h
          obtain ⟨rfl, rfl⟩ : 0 = i ∧ r.ts = tsv := by
            constructor <;> [exact congrArg Prod.fst (Option.some.inj h);
              exact congrArg Prod.snd (Option.some.inj h)]
          refine ⟨Nat.succ_pos _, by simpa using hr, rfl, ?_⟩
          intro j hj hmj
          cases j with
          | zero => simp
          | succ k =>
            have hk : k < rest.length := Nat.lt_of_succ_lt_succ hj
            have := hmax0 k hk (by simpa using hmj)
            have hle : ts0 ≤ r.ts := le_of_not_lt hlt
            simp only [List.getD_cons_succ]
            omega
    · rw [pickLatest, if_neg hr] at h
      have hr' : matchB u ti r = false := by
        revert hr; cases matchB u ti r <;> simp
      cases htail : pickLatest u ti rest with
      | none => rw [htail] at h; simp at h
      | some q2 =>
        rcases q2 with ⟨j0, ts0⟩
        rw [htail] at h
        simp only [Option.map_some'] at h
        obtain ⟨rfl, rfl⟩ : j0 + 1 = i ∧ ts0 = tsv := by
          constructor <;> [exact congrArg Prod.fst (Option.some.inj h);
            exact congrArg Prod.snd (Option.some.inj h)]
        obtain ⟨hj0, hm0, hts0, hmax0⟩ := ih j0 ts0 htail
        refine ⟨Nat.succ_lt_succ hj0, by simpa using hm0, by simpa using hts0, ?_⟩
        intro j hj hmj
        cases j with
        | zero =>
          exfalso
          rw [List.getD_cons_zero, hr'] at hmj
          cases hmj
        | succ k =>
          have hk : k < rest.length := Nat.lt_of_succ_lt_succ hj
          simpa using hmax0 k hk (by simpa using hmj)

/-- Shifting an update target across a prefix with no matching rows. -/
theorem pickLatest_append (u ti : String) :
    ∀ (db l : List Row), (∀ r ∈ db, matchB u ti r = false) →
      pickLatest u ti (db ++ l) =
        (pickLatest u ti l).map (fun q => (q.1 + db.length, q.2)) := by
  intro db
  induction db with
  | nil =>
    intro l _
    cases h : pickLatest u ti l with
    | none => simp [h]
    | some q => simp [h]
  | cons r db ih =>
    intro l h
    have hr : matchB u ti r = false := h r (List.mem_cons_self r db)
    rw [List.cons_append, pickLatest, if_neg (by simp [hr])]
    rw [ih l (fun q hq => h q (List.mem_cons_of_mem r hq))]
    cases hl : pickLatest u ti l with
    | none => simp
    | some q =>
      simp [Prod.ext_iff]
      omega

theorem matchB_true_iff (u ti : String) (r : Row) :
    matchB u ti r = true ↔ (r.user = u ∧ r.title = ti) := by
  simp [matchB, Bool.and_eq_true, beq_iff_eq]

theorem matchB_false_iff (u ti : String) (r : Row) :
    matchB u ti r = false ↔ ¬(r.user = u ∧ r.title = ti) := by
  rw [← matchB_true_iff u ti r]
  cases matchB u ti r <;> simp

/-! ### Claim C7 -/

/-- C7: every Mark-as-Used invocation appends exactly one new row carrying
used=1, success NULL and the current timestamp for the given (user, title);
the previous rows remain untouched as a prefix, and a repeated invocation
for the same (user, title) appends yet another row — no deduplication, no
overwrite. -/
theorem recordUsed_appends_one (db : List Row) (now : Nat) (u ti : String) :
    (∃ r : Row, recordUsed db now u ti = db ++ [r] ∧ r.user = u ∧ r.title = ti ∧
        r.ts = now ∧ r.used = some 1 ∧ r.success = none) ∧
      (recordUsed db now u ti).length = db.length + 1 ∧
      ∀ now2 : Nat,
        (recordUsed (recordUsed db now u ti) now2 u ti).length = db.length + 2 := by
  refine ⟨⟨_, rfl, rfl, rfl, rfl, rfl, rfl⟩, by simp [recordUsed],
    fun now2 => by simp [recordUsed]⟩

/-! ### Claim C8 -/

/-- C8: the Success/Fail handlers update exactly the targeted row — a
matching row of maximal timestamp — and no other row (second conjunct);
with no matching row the ledger is unchanged and no error is raised (first
conjunct); and after two Mark-as-Used inserts for the same (user, title)
with increasing timestamps, marking the outcome rewrites only the second
(latest) inserted row (third conjunct). -/
theorem recordOutcome_latest (db : List Row) (u ti : String) (s : Int) :
    ((∀ r ∈ db, ¬(r.user = u ∧ r.title = ti)) → recordOutcome db u ti s = db) ∧
    (∀ i tsv, pickLatest u ti db = some (i, tsv) →
      recordOutcome db u ti s =
          db.set i { db.getD i default with success := some s } ∧
        matchB u ti (db.getD i default) = true ∧
        (db.getD i default).ts = tsv ∧
        ∀ j < db.length, matchB u ti (db.getD j default) = true →
          (db.getD j default).ts ≤ tsv) ∧
    (∀ t1 t2 : Nat, t1 < t2 → (∀ r ∈ db, ¬(r.user = u ∧ r.title = ti)) →
      recordOutcome (recordUsed (recordUsed db t1 u ti) t2 u ti) u ti s =
        recordUsed db t1 u ti ++
          [{ id := nextId (recordUsed db t1 u ti), user := u, title := ti,
             ts := t2, used := some 1, success := some s }]) := by
  refine ⟨?_, ?_, ?_⟩
  · intro h
    have hn : pickLatest u ti db = none :=
      pickLatest_none u ti db (fun r hr => (matchB_false_iff u ti r).2 (h r hr))
    simp [recordOutcome, hn]
  · intro i tsv hp
    obtain ⟨hi, hm, hts, hmax⟩ := pickLatest_spec u ti db i tsv hp
    exact ⟨by simp [recordOutcome, hp], hm, hts, hmax⟩
  · intro t1 t2 hlt h
    have hnm : ∀ r ∈ db, matchB u ti r = false :=
      fun r hr => (matchB_false_iff u ti r).2 (h r hr)
    have hu2 : recordUsed (recordUsed db t1 u ti) t2 u ti =
        db ++ [usedRow db t1 u ti, usedRow (recordUsed db t1 u ti) t2 u ti] := by
      simp [recordUsed, List.append_assoc]
    rw [hu2]
    have hp2 : pickLatest u ti
        [usedRow db t1 u ti, usedRow (recordUsed db t1 u ti) t2 u ti] =
        some (1, t2) := by
      simp [pickLatest, matchB, usedRow, hlt]
    have hp : pickLatest u ti
        (db ++ [usedRow db t1 u ti, usedRow (recordUsed db t1 u ti) t2 u ti]) =
        some (1 + db.length, t2) := by
      rw [pickLatest_append u ti db _ hnm, hp2]
      rfl
    simp only [recordOutcome, hp]
    rw [List.getD_append_right _ _ _ _ (by omega)]
    rw [List.set_append, if_neg (by omega)]
    have h1 : 1 + db.length - db.length = 1 := by omega
    rw [h1]
    show db ++ _ = (db ++ [usedRow db t1 u ti]) ++ _
    rw [List.append_assoc]
    rfl

/-- Ground instance of C8: two Mark-as-Used inserts at timestamps 0 and 1,
then a Success mark; only the second row gets success=1. -/
theorem recordOutcome_latest_w :
    recordOutcome (recordUsed (recordUsed [] 0 "u" "X") 1 "u" "X") "u" "X" 1 =
      recordUsed [] 0 "u" "X" ++
        [{ id := nextId (recordUsed [] 0 "u" "X"), user := "u", title := "X",
           ts := 1, used := some 1, success := some 1 }] :=
  (recordOutcome_latest [] "u" "X" 1).2.2 0 1 (by decide) (by intro r hr; cases hr)

/-! ### Claim C9 -/

/-- C9 counterexample: for a user with zero ledger rows the statistics block
computes and shows nothing at all — the `stats_df.empty` guard of line 64
skips both the bar chart and the success-rate line — rather than returning
usedCount=0 with successRate "N/A" as the claim states. -/
theorem computeStats_zero_rows_none : computeStats [] "guest" = none := rfl

/-- When the user has rows, the statistics block runs and produces exactly
these counts and rate. -/
theorem computeStats_of_rows (db : List Row) (u : String)
    (h : (userRows db u).isEmpty = false) :
    computeStats db u = some
      { usedCount := ((userRows db u).filter (fun r => r.used == some 1)).length,
        notUsedCount := ((userRows db u).filter (fun r => r.used == some 0)).length,
        successCount :=
          ((userRows db u).filter (fun r => r.success == some 1)).length,
        successRate :=
          if 0 < ((userRows db u).filter (fun r => r.used == some 1)).length
          then RateDisplay.ratio
            ((userRows db u).filter (fun r => r.success == some 1)).length
            ((userRows db u).filter (fun r => r.used == some 1)).length
          else RateDisplay.na } := by
  simp only [computeStats, h, Bool.false_eq_true, if_false]

/-- C9 amended: with zero ledger rows for the user, nothing is computed or
displayed (`none`) — no usedCount=0 / "N/A" result exists; when the user has
at least one row, usedCount counts the used=1 rows, successCount the
success=1 rows, and the displayed rate is successCount over usedCount when
usedCount is positive and "N/A" otherwise.  The statistics are a pure
function of the current ledger contents, so they are recomputed fresh from
the ledger on each request. -/
theorem computeStats_spec (db : List Row) (u : String) :
    (userRows db u = [] → computeStats db u = none) ∧
    (userRows db u ≠ [] → ∃ st : Stats,
      computeStats db u = some st ∧
      st.usedCount = ((userRows db u).filter (fun r => r.used == some 1)).length ∧
      st.notUsedCount =
        ((userRows db u).filter (fun r => r.used == some 0)).length ∧
      st.successCount =
        ((userRows db u).filter (fun r => r.success == some 1)).length ∧
      st.successRate = (if 0 < st.usedCount
        then RateDisplay.ratio st.successCount st.usedCount
        else RateDisplay.na)) := by
  constructor
  · intro h
    simp [computeStats, h]
  · intro h
    have hne : (userRows db u).isEmpty = false := by
      rw [List.isEmpty_eq_false]
      exact h
    exact ⟨_, computeStats_of_rows db u hne, rfl, rfl, rfl, rfl⟩

/-- A one-row ledger for ground instances. -/
def rowU : Row :=
  { id := 1, user := "u", title := "X", ts := 0, used := some 1, success := none }

/-- Ground instance of C9 (amended): one used=1 row yields a computed block
with a 0/1 rate. -/
theorem computeStats_spec_w :
    userRows [rowU] "u" ≠ [] ∧
      ∃ st : Stats,
        computeStats [rowU] "u" = some st ∧
        st.usedCount =
          ((userRows [rowU] "u").filter (fun r => r.used == some 1)).length ∧
        st.notUsedCount =
          ((userRows [rowU] "u").filter (fun r => r.used == some 0)).length ∧
        st.successCount =
          ((userRows [rowU] "u").filter (fun r => r.success == some 1)).length ∧
        st.successRate = (if 0 < st.usedCount
          then RateDisplay.ratio st.successCount st.usedCount
          else RateDisplay.na) :=
  ⟨by decide, (computeStats_spec [rowU] "u").2 (by decide)⟩

/-! ### Claim C10 -/

/-- C10: starting from the table created empty at line 47, the only insert
path (Mark-as-Used, line 182) hard-codes used=1, and the Success/Fail
updates only touch the `success` field — so in every reachable ledger state
every row has used=1 (first conjunct); consequently every computed
statistics block reports notUsedCount = 0 for every user (second conjunct),
and every success/fail update targets a used=1 row (third conjunct). -/
theorem reachable_used_invariant (db : List Row) (h : Reachable db) :
    (∀ r ∈ db, r.used = some 1) ∧
    (∀ u st, computeStats db u = some st → st.notUsedCount = 0) ∧
    (∀ u ti i tsv, pickLatest u ti db = some (i, tsv) →
      (db.getD i default).used = some 1) := by
  have hinv : ∀ r ∈ db, r.used = some 1 := by
    induction h with
    | init => intro r hr; cases hr
    | used now u ti _ ih =>
      intro r hr
      rcases List.mem_append.1 hr with h1 | h1
      · exact ih r h1
      · have hx : r = usedRow _ now u ti := List.mem_singleton.1 h1
        rw [hx]
        rfl
    | outcome u ti s _ ih =>
      rename_i db' _
      intro r hr
      unfold recordOutcome at hr
      cases hp : pickLatest u ti db' with
      | none => rw [hp] at hr; exact ih r hr
      | some q =>
        rcases q with ⟨i, tsv⟩
        rw [hp] at hr
        simp only at hr
        rcases List.mem_or_eq_of_mem_set hr with h1 | h1
        · exact ih r h1
        · obtain ⟨hi, _, _, _⟩ := pickLatest_spec u ti db' i tsv hp
          have hmem : db'.getD i default ∈ db' := by
            rw [List.getD_eq_getElem db' default hi]
            exact List.getElem_mem hi
          rw [h1]
          show (db'.getD i default).used = some 1
          exact ih _ hmem
  refine ⟨hinv, ?_, ?_⟩
  · intro u st hst
    have hn : (userRows db u).filter (fun r => r.used == some 0) = [] := by
      rw [List.filter_eq_nil_iff]
      intro r hr
      have hrdb : r ∈ db := List.mem_of_mem_filter hr
      rw [hinv r hrdb]
      decide
    by_cases he : (userRows db u).isEmpty
    · rw [computeStats, if_pos he] at hst
      cases hst
    · have he' : (userRows db u).isEmpty = false := by
        revert he; cases (userRows db u).isEmpty <;> simp
      rw [computeStats_of_rows db u he'] at hst
      have hst' := Option.some.inj hst
      rw [← hst', hn]
      rfl
  · intro u ti i tsv hp
    obtain ⟨hi, _, _, _⟩ := pickLatest_spec u ti db i tsv hp
    have hmem : db.getD i default ∈ db := by
      rw [List.getD_eq_getElem db default hi]
      exact List.getElem_mem hi
    exact hinv _ hmem

/-- Ground instance of C10: in the reachable one-insert ledger the row any
outcome update would target has used=1. -/
theorem reachable_used_invariant_w :
    ((recordUsed [] 5 "u" "t").getD 0 default).used = some 1 :=
  (reachable_used_invariant _
    (Reachable.used 5 "u" "t" Reachable.init)).2.2 "u" "t" 0 5 (by decide)
